import Mathlib

/-!
Verification of the slacktivate specification compiler against its source.

This file gives a shallow embedding, in Lean, of the pure core of the
`slacktivate.input` package (`helpers.py`, `parsing.py`, and the merge loop of
`config.py`): Python dictionaries become association lists with Python's
insertion-order update semantics, records become a small universe of JSON-like
values, and the external collaborators (the jinja2 template engine and the yaql
filter engine) are modelled from the specification's contracts for them, since
their code is not part of this repository.  The theorems at the end of the file
settle the frozen claims about this code.
-/

namespace Slacktivate

/-- The universe of scalar and list values a loaded record can hold
(JSON/YAML/CSV data: strings, integers, booleans, null, and lists).
Mirrors the dynamic values manipulated by `helpers.py` and `parsing.py`. -/
inductive Value where
  | vstr (s : String)
  | vint (n : Int)
  | vbool (b : Bool)
  | vnull
  | vlist (xs : List Value)

mutual

def Value.decEq : (a b : Value) → Decidable (a = b)
  | .vstr a, .vstr b =>
    if h : a = b then isTrue (by rw [h]) else isFalse (by intro hc; cases hc; exact h rfl)
  | .vint a, .vint b =>
    if h : a = b then isTrue (by rw [h]) else isFalse (by intro hc; cases hc; exact h rfl)
  | .vbool a, .vbool b =>
    if h : a = b then isTrue (by rw [h]) else isFalse (by intro hc; cases hc; exact h rfl)
  | .vnull, .vnull => isTrue rfl
  | .vlist xs, .vlist ys =>
    match Value.decEqList xs ys with
    | isTrue h => isTrue (by rw [h])
    | isFalse h => isFalse (by intro hc; cases hc; exact h rfl)
  | .vstr _, .vint _ => isFalse (fun h => Value.noConfusion h)
  | .vstr _, .vbool _ => isFalse (fun h => Value.noConfusion h)
  | .vstr _, .vnull => isFalse (fun h => Value.noConfusion h)
  | .vstr _, .vlist _ => isFalse (fun h => Value.noConfusion h)
  | .vint _, .vstr _ => isFalse (fun h => Value.noConfusion h)
  | .vint _, .vbool _ => isFalse (fun h => Value.noConfusion h)
  | .vint _, .vnull => isFalse (fun h => Value.noConfusion h)
  | .vint _, .vlist _ => isFalse (fun h => Value.noConfusion h)
  | .vbool _, .vstr _ => isFalse (fun h => Value.noConfusion h)
  | .vbool _, .vint _ => isFalse (fun h => Value.noConfusion h)
  | .vbool _, .vnull => isFalse (fun h => Value.noConfusion h)
  | .vbool _, .vlist _ => isFalse (fun h => Value.noConfusion h)
  | .vnull, .vstr _ => isFalse (fun h => Value.noConfusion h)
  | .vnull, .vint _ => isFalse (fun h => Value.noConfusion h)
  | .vnull, .vbool _ => isFalse (fun h => Value.noConfusion h)
  | .vnull, .vlist _ => isFalse (fun h => Value.noConfusion h)
  | .vlist _, .vstr _ => isFalse (fun h => Value.noConfusion h)
  | .vlist _, .vint _ => isFalse (fun h => Value.noConfusion h)
  | .vlist _, .vbool _ => isFalse (fun h => Value.noConfusion h)
  | .vlist _, .vnull => isFalse (fun h => Value.noConfusion h)

def Value.decEqList : (xs ys : List Value) → Decidable (xs = ys)
  | [], [] => isTrue rfl
  | [], _ :: _ => isFalse (fun h => List.noConfusion h)
  | _ :: _, [] => isFalse (fun h => List.noConfusion h)
  | x :: xs, y :: ys =>
    match Value.decEq x y, Value.decEqList xs ys with
    | isTrue h1, isTrue h2 => isTrue (by rw [h1, h2])
    | isFalse h1, _ => isFalse (by intro hc; injection hc with hh _; exact h1 hh)
    | _, isFalse h2 => isFalse (by intro hc; injection hc with _ ht; exact h2 ht)

end

instance : DecidableEq Value := Value.decEq

instance {ε α : Type} [DecidableEq ε] [DecidableEq α] : DecidableEq (Except ε α)
  | .ok a, .ok b =>
    if h : a = b then isTrue (by rw [h]) else isFalse (by intro hc; cases hc; exact h rfl)
  | .error a, .error b =>
    if h : a = b then isTrue (by rw [h]) else isFalse (by intro hc; cases hc; exact h rfl)
  | .ok _, .error _ => isFalse (fun h => Except.noConfusion h)
  | .error _, .ok _ => isFalse (fun h => Except.noConfusion h)

/-- A record's field mapping: field name to value, in insertion order
(a Python `dict`, so keys are unique). -/
abbrev Fields := List (String × Value)

/-- A loaded record, as seen by `helpers.py`.  The Python code branches on
whether a record is a mapping (`dict`/`UserDict`), a list (`list`/`UserList`),
or anything else (see `reindex_user_data.pick_key_pattern`), so the embedding
distinguishes those three shapes. -/
inductive Rec where
  | rmap (fields : Fields)
  | rlist (items : List Value)
  | rother
deriving DecidableEq

/-- Python `dict` lookup `d.get(k)` on an insertion-ordered association list. -/
def pyGet {K V : Type} [DecidableEq K] (d : List (K × V)) (k : K) : Option V :=
  match d with
  | [] => none
  | (a, b) :: rest => if a = k then some b else pyGet rest k

/-- Python `dict` assignment `d[k] = v`: if the key is present the value is
replaced at the key's existing position, otherwise the pair is appended. -/
def pyInsert {K V : Type} [DecidableEq K] (d : List (K × V)) (k : K) (v : V) :
    List (K × V) :=
  match d with
  | [] => [(k, v)]
  | (a, b) :: rest => if a = k then (k, v) :: rest else (a, b) :: pyInsert rest k v

/-- Keep the first occurrence of every element, dropping later duplicates
(the membership order produced by building a Python dict and reading it back). -/
def dedupFirst {α : Type} [DecidableEq α] : List α → List α
  | [] => []
  | x :: xs => x :: dedupFirst (xs.filter (fun y => y ≠ x))
termination_by l => l.length
decreasing_by
  exact Nat.lt_succ_of_le (List.length_filter_le _ _)

/-- The list-union loop of `merge_dict` (`helpers.py`, lines 93-100): walk the
new list and append every element not already present in the growing result. -/
def listUnion (l : List Value) (value : List Value) : List Value :=
  value.foldl (fun acc v => if v ∈ acc then acc else acc ++ [v]) l

/-- One iteration of the `merge_dict` loop body (`helpers.py`, lines 85-111):
add a missing field, union two list-valued fields, and otherwise override, or
raise when `only_exact_merge` is set and the non-list values differ. -/
def mergeItem (only_exact_merge : Bool) (result : Fields) (kv : String × Value) :
    Except String Fields :=
  match pyGet result kv.1 with
  | none => .ok (pyInsert result kv.1 kv.2)
  | some cur =>
    match cur, kv.2 with
    | .vlist l, .vlist value => .ok (pyInsert result kv.1 (.vlist (listUnion l value)))
    | _, _ =>
      if only_exact_merge ∧ cur ≠ kv.2 then
        .error ("merging the same user from different sources, conflict on " ++ kv.1)
      else
        .ok (pyInsert result kv.1 kv.2)

/-- The `for (key, value) in dest.items()` loop of `merge_dict`. -/
def mergeLoop (only_exact_merge : Bool) (result : Fields) :
    List (String × Value) → Except String Fields
  | [] => .ok result
  | kv :: rest => do
    mergeLoop only_exact_merge (← mergeItem only_exact_merge result kv) rest

/-- `helpers.merge_dict(src, dest, only_exact_merge)`: `None` edge cases, then
the field-by-field loop over `dest` mutating a copy of `src`. -/
def merge_dict (src dest : Option Fields) (only_exact_merge : Bool) :
    Except String (Option Fields) :=
  match src, dest with
  | none, d => .ok d
  | some s, none => .ok (some s)
  | some s, some d => (mergeLoop only_exact_merge s d).map some

section DictLemmas

variable {K V : Type} [DecidableEq K]

theorem pyGet_cons (a : K) (b : V) (d : List (K × V)) (k : K) :
    pyGet ((a, b) :: d) k = if a = k then some b else pyGet d k := rfl

theorem pyGet_pyInsert_self (d : List (K × V)) (k : K) (v : V) :
    pyGet (pyInsert d k v) k = some v := by
  induction d with
  | nil => simp [pyGet, pyInsert]
  | cons p rest ih =>
    obtain ⟨a, b⟩ := p
    by_cases h : a = k <;> simp [pyGet, pyInsert, h, ih]

theorem pyGet_pyInsert_ne (d : List (K × V)) (k k' : K) (v : V) (h : k' ≠ k) :
    pyGet (pyInsert d k v) k' = pyGet d k' := by
  have hkk : ¬ (k = k') := fun hc => h hc.symm
  induction d with
  | nil => simp [pyGet, pyInsert, hkk]
  | cons p rest ih =>
    obtain ⟨a, b⟩ := p
    by_cases ha : a = k
    · subst ha
      simp [pyGet, pyInsert, hkk]
    · by_cases ha' : a = k' <;> simp [pyGet, pyInsert, ha, ha', hkk, h, ih]

theorem map_fst_pyInsert (d : List (K × V)) (k : K) (v : V) :
    (pyInsert d k v).map Prod.fst =
      if k ∈ d.map Prod.fst then d.map Prod.fst else d.map Prod.fst ++ [k] := by
  induction d with
  | nil => simp [pyInsert]
  | cons p rest ih =>
    obtain ⟨a, b⟩ := p
    by_cases h : a = k
    · simp [pyInsert, h]
    · have hka : ¬ (k = a) := fun hc => h hc.symm
      simp only [pyInsert, if_neg h, List.map_cons, ih]
      by_cases hm : k ∈ rest.map Prod.fst <;>
        simp [hm, hka]

theorem mem_map_fst_pyInsert (d : List (K × V)) (k k' : K) (v : V) :
    k' ∈ (pyInsert d k v).map Prod.fst ↔ k' = k ∨ k' ∈ d.map Prod.fst := by
  rw [map_fst_pyInsert]
  by_cases hm : k ∈ d.map Prod.fst
  · simp only [if_pos hm]
    constructor
    · exact fun h => Or.inr h
    · rintro (rfl | h)
      · exact hm
      · exact h
  · simp only [if_neg hm, List.mem_append, List.mem_singleton]
    tauto

theorem nodup_map_fst_pyInsert (d : List (K × V)) (k : K) (v : V)
    (h : (d.map Prod.fst).Nodup) : ((pyInsert d k v).map Prod.fst).Nodup := by
  rw [map_fst_pyInsert]
  by_cases hm : k ∈ d.map Prod.fst
  · simpa [hm] using h
  · simp only [if_neg hm]
    exact List.Nodup.append h (List.nodup_singleton k)
      (by simpa [List.disjoint_singleton] using hm)

theorem pyInsert_append_of_not_mem (d : List (K × V)) (k : K) (v : V)
    (h : k ∉ d.map Prod.fst) : pyInsert d k v = d ++ [(k, v)] := by
  induction d with
  | nil => simp [pyInsert]
  | cons p rest ih =>
    obtain ⟨a, b⟩ := p
    simp only [List.map_cons, List.mem_cons, not_or] at h
    have hak : ¬ a = k := fun hc => h.1 hc.symm
    simp only [pyInsert, if_neg hak, List.cons_append]
    congr 1
    exact ih h.2

theorem pyGet_eq_none_iff (d : List (K × V)) (k : K) :
    pyGet d k = none ↔ k ∉ d.map Prod.fst := by
  induction d with
  | nil => simp [pyGet]
  | cons p rest ih =>
    obtain ⟨a, b⟩ := p
    by_cases h : a = k
    · subst h
      simp [pyGet]
    · have hka : ¬ (k = a) := fun hc => h hc.symm
      simp [pyGet, h, ih, hka]

theorem pyGet_isSome_iff (d : List (K × V)) (k : K) :
    (pyGet d k).isSome = true ↔ k ∈ d.map Prod.fst := by
  rw [← Decidable.not_iff_not, ← pyGet_eq_none_iff d k]
  cases pyGet d k <;> simp

theorem pyGet_mem (d : List (K × V)) (k : K) (v : V) (h : pyGet d k = some v) :
    (k, v) ∈ d := by
  induction d with
  | nil => simp [pyGet] at h
  | cons p rest ih =>
    obtain ⟨a, b⟩ := p
    by_cases ha : a = k
    · subst ha
      simp [pyGet] at h
      subst h
      exact List.mem_cons_self _ _
    · simp [pyGet, ha] at h
      exact List.mem_cons_of_mem _ (ih h)

theorem mem_pyGet_of_nodup (d : List (K × V)) (k : K) (v : V)
    (hnd : (d.map Prod.fst).Nodup) (h : (k, v) ∈ d) : pyGet d k = some v := by
  induction d with
  | nil => simp at h
  | cons p rest ih =>
    obtain ⟨a, b⟩ := p
    simp only [List.map_cons, List.nodup_cons] at hnd
    rcases List.mem_cons.mp h with h1 | h1
    · cases h1
      simp [pyGet]
    · have hak : a ≠ k := by
        intro hc
        subst hc
        exact hnd.1 (List.mem_map.mpr ⟨(a, v), h1, rfl⟩)
      simp [pyGet, hak]
      exact ih hnd.2 h1

end DictLemmas

section DedupLemmas

variable {α : Type} [DecidableEq α]

theorem dedupFirst_nil : dedupFirst ([] : List α) = [] := by
  simp [dedupFirst]

theorem dedupFirst_cons (x : α) (xs : List α) :
    dedupFirst (x :: xs) = x :: dedupFirst (xs.filter (fun y => y ≠ x)) := by
  simp [dedupFirst]

theorem mem_dedupFirst : ∀ (l : List α) (a : α), a ∈ dedupFirst l ↔ a ∈ l
  | [], a => by simp [dedupFirst_nil]
  | x :: xs, a => by
    rw [dedupFirst_cons]
    by_cases h : a = x
    · simp [h]
    · have := mem_dedupFirst (xs.filter (fun y => y ≠ x)) a
      simp only [List.mem_cons, this, List.mem_filter]
      simp [h]
termination_by l => l.length
decreasing_by
  exact Nat.lt_succ_of_le (List.length_filter_le _ _)

theorem nodup_dedupFirst : ∀ (l : List α), (dedupFirst l).Nodup
  | [] => by simp [dedupFirst_nil]
  | x :: xs => by
    rw [dedupFirst_cons]
    refine List.nodup_cons.mpr ⟨?_, nodup_dedupFirst (xs.filter (fun y => y ≠ x))⟩
    rw [mem_dedupFirst]
    simp
termination_by l => l.length
decreasing_by
  exact Nat.lt_succ_of_le (List.length_filter_le _ _)

end DedupLemmas

section UnionLemmas

theorem listUnion_nil (l : List Value) : listUnion l [] = l := rfl

theorem listUnion_cons (l : List Value) (v : Value) (b : List Value) :
    listUnion l (v :: b) = listUnion (if v ∈ l then l else l ++ [v]) b := rfl

/-- The growing-list union of `merge_dict` equals: the old list, followed by
the first occurrence of every new element not already present, in order. -/
theorem listUnion_eq (b : List Value) : ∀ (l : List Value),
    listUnion l b = l ++ dedupFirst (b.filter (fun x => x ∉ l)) := by
  induction b with
  | nil => intro l; simp [listUnion_nil, dedupFirst_nil]
  | cons v b ih =>
    intro l
    rw [listUnion_cons]
    by_cases h : v ∈ l
    · simp only [if_pos h, ih l]
      congr 2
      simp only [List.filter_cons]
      simp [h]
    · simp only [if_neg h, ih (l ++ [v])]
      rw [List.append_assoc]
      congr 1
      simp only [List.filter_cons]
      rw [if_pos (by simpa using h)]
      rw [dedupFirst_cons]
      simp only [List.cons_append, List.nil_append]
      congr 1
      rw [List.filter_filter]
      congr 1
      apply List.filter_congr
      intro x _
      by_cases hx : x = v <;> by_cases hl : x ∈ l <;> simp [hx, hl]

theorem mem_listUnion (l b : List Value) (x : Value) :
    x ∈ listUnion l b ↔ x ∈ l ∨ x ∈ b := by
  rw [listUnion_eq, List.mem_append, mem_dedupFirst, List.mem_filter]
  by_cases hl : x ∈ l <;> simp [hl]

end UnionLemmas

section MergeLemmas

/-- Is the value a Python `list`?  (`type(v) is list`). -/
def isVList : Value → Bool
  | .vlist _ => true
  | _ => false

/-- How a single field of `dest` combines with the current `result` during the
default (non-exact) merge: missing fields and non-list conflicts take the new
value, two lists take their growing union. -/
def combineField : Option Value → Value → Value
  | some (.vlist l), .vlist b => .vlist (listUnion l b)
  | _, v => v

/-- Does field `k` conflict between `a` and `b` in the sense of the exact-merge
check: present on both sides, different values, and not both lists? -/
def conflictB (a b : Fields) (k : String) : Bool :=
  match pyGet a k, pyGet b k with
  | some v, some w => decide (v ≠ w) && ! (isVList v && isVList w)
  | _, _ => false

theorem mergeItem_false (result : Fields) (kv : String × Value) :
    mergeItem false result kv =
      .ok (pyInsert result kv.1 (combineField (pyGet result kv.1) kv.2)) := by
  unfold mergeItem
  cases hg : pyGet result kv.1 with
  | none => simp [combineField]
  | some cur => cases cur <;> cases h2 : kv.2 <;> simp_all [combineField]

theorem mergeLoop_false_ok (dest : List (String × Value)) :
    ∀ result : Fields, (dest.map Prod.fst).Nodup →
    ∃ m, mergeLoop false result dest = .ok m ∧
      (∀ k, pyGet dest k = none → pyGet m k = pyGet result k) ∧
      (∀ k v, pyGet dest k = some v →
        pyGet m k = some (combineField (pyGet result k) v)) := by
  induction dest with
  | nil =>
    intro result _
    refine ⟨result, rfl, fun k _ => rfl, fun k v hv => ?_⟩
    simp [pyGet] at hv
  | cons kv rest ih =>
    intro result hnd
    obtain ⟨k0, v0⟩ := kv
    simp only [List.map_cons, List.nodup_cons] at hnd
    set result' := pyInsert result k0 (combineField (pyGet result k0) v0) with hres
    obtain ⟨m, hm, h1, h2⟩ := ih result' hnd.2
    refine ⟨m, ?_, ?_, ?_⟩
    · simp only [mergeLoop, mergeItem_false]
      exact hm
    · intro k hk
      rw [pyGet_cons] at hk
      by_cases hk0 : k0 = k
      · simp [hk0] at hk
      · simp only [if_neg hk0] at hk
        rw [h1 k hk, hres, pyGet_pyInsert_ne _ _ _ _ (fun hc => hk0 hc.symm)]
    · intro k v hk
      rw [pyGet_cons] at hk
      by_cases hk0 : k0 = k
      · subst hk0
        rw [if_pos rfl] at hk
        obtain rfl : v0 = v := Option.some.inj hk
        have hrest : pyGet rest k0 = none :=
          (pyGet_eq_none_iff rest k0).mpr hnd.1
        rw [h1 k0 hrest, hres, pyGet_pyInsert_self]
      · simp only [if_neg hk0] at hk
        rw [h2 k v hk, hres, pyGet_pyInsert_ne _ _ _ _ (fun hc => hk0 hc.symm)]

theorem mergeItem_true_error (result : Fields) (kv : String × Value)
    (h : conflictB result [kv] kv.1 = true) :
    mergeItem true result kv =
      .error ("merging the same user from different sources, conflict on " ++ kv.1) := by
  unfold conflictB at h
  unfold mergeItem
  cases hg : pyGet result kv.1 with
  | none => simp [hg, pyGet] at h
  | some cur =>
    simp only [hg, pyGet, if_pos rfl] at h
    cases cur <;> cases h2 : kv.2 <;> simp_all [isVList]

theorem mergeItem_true_ok (result : Fields) (kv : String × Value)
    (h : conflictB result [kv] kv.1 = false) :
    mergeItem true result kv =
      .ok (pyInsert result kv.1 (combineField (pyGet result kv.1) kv.2)) := by
  unfold conflictB at h
  unfold mergeItem
  cases hg : pyGet result kv.1 with
  | none => simp [combineField]
  | some cur =>
    simp only [hg, pyGet, if_pos rfl] at h
    cases cur <;> cases h2 : kv.2 <;> simp_all [isVList, combineField]

theorem mergeLoop_true_error (dest : List (String × Value)) :
    ∀ result : Fields, (dest.map Prod.fst).Nodup →
    (∃ k, conflictB result dest k = true) →
    ∃ k', conflictB result dest k' = true ∧
      mergeLoop true result dest =
        .error ("merging the same user from different sources, conflict on " ++ k') := by
  induction dest with
  | nil =>
    rintro result _ ⟨k, hk⟩
    simp [conflictB, pyGet] at hk
  | cons kv rest ih =>
    rintro result hnd ⟨k, hk⟩
    obtain ⟨k0, v0⟩ := kv
    simp only [List.map_cons, List.nodup_cons] at hnd
    by_cases hc0 : conflictB result [(k0, v0)] k0 = true
    · refine ⟨k0, ?_, ?_⟩
      · unfold conflictB at hc0 ⊢
        simpa [pyGet] using hc0
      · simp only [mergeLoop, mergeItem_true_error result (k0, v0) hc0]
        rfl
    · have hc0' : conflictB result [(k0, v0)] k0 = false := by
        simpa using hc0
      have hkne : k ≠ k0 := by
        intro hc
        subst hc
        apply hc0
        unfold conflictB at hk ⊢
        simpa [pyGet] using hk
      set result' := pyInsert result k0 (combineField (pyGet result k0) v0) with hres
      have hget : ∀ k'', k'' ≠ k0 → pyGet result' k'' = pyGet result k'' := by
        intro k'' hne
        rw [hres, pyGet_pyInsert_ne _ _ _ _ hne]
      have hkrest : conflictB result' rest k = true := by
        unfold conflictB at hk ⊢
        rw [hget k hkne]
        rw [pyGet_cons, if_neg (fun hc => hkne hc.symm)] at hk
        exact hk
      obtain ⟨k', hk', herr⟩ := ih result' hnd.2 ⟨k, hkrest⟩
      have hk'ne : k' ≠ k0 := by
        intro hc
        subst hc
        unfold conflictB at hk'
        rw [(pyGet_eq_none_iff rest k').mpr hnd.1] at hk'
        rcases pyGet result' k' with _ | w <;> simp at hk'
      refine ⟨k', ?_, ?_⟩
      · unfold conflictB at hk' ⊢
        rw [hget k' hk'ne] at hk'
        rw [pyGet_cons, if_neg (fun hc => hk'ne hc.symm)]
        exact hk'
      · simp only [mergeLoop, mergeItem_true_ok result (k0, v0) hc0']
        exact herr

end MergeLemmas

mutual

/-- Python `str()` of a value, as used by `"\x7b\x7b\x7b\x7b \x7b\x7d \x7d\x7d\x7d\x7d".format(...)`
in `pick_key_pattern` and by the template engine when it prints a substituted
field. -/
def pyStr : Value → String
  | .vstr s => s
  | .vint n => toString n
  | .vbool b => cond b "True" "False"
  | .vnull => "None"
  | .vlist xs => "[" ++ String.intercalate ", " (pyReprList xs) ++ "]"

/-- Python `repr()` of each element of a list (`str()` of a list shows its
elements through `repr`, so strings gain quotes). -/
def pyReprList : List Value → List String
  | [] => []
  | v :: vs => pyReprItem v :: pyReprList vs

def pyReprItem : Value → String
  | .vstr s => "\x27" ++ s ++ "\x27"
  | .vint n => toString n
  | .vbool b => cond b "True" "False"
  | .vnull => "None"
  | .vlist xs => "[" ++ String.intercalate ", " (pyReprList xs) ++ "]"

end

/-- The Python test `"@" in value` from the key heuristic of
`reindex_user_data`: substring test on strings, membership test on lists, and
a `TypeError` on anything else. -/
def containsAt : Value → Except String Bool
  | .vstr s => .ok (s.data.any (fun c => c = '@'))
  | .vlist xs => .ok (xs.any (fun v => decide (v = Value.vstr "@")))
  | _ => .error "TypeError: argument is not iterable"

/-- Is the character allowed in a jinja2 identifier? -/
def identChar (c : Char) : Bool := c.isAlphanum || c = '_'

/-- Modelled from the spec: the Template Engine of §4.2 is the external
`jinja2` library, whose code is not in this repository.  This models the
fragment of rendering that key computation exercises, per the spec's contract
(`render` substitutes referenced fields; the engine as configured in
`helpers.render_jinja2` is lenient, so a missing reference becomes the empty
string): a pattern that is exactly one variable reference (the
`\x7b\x7b name \x7d\x7d` shape that `pick_key_pattern` produces) renders to
the record field it names, printed with `str`, or to the empty string when
that field is missing; a one-token numeric literal renders to itself; a
pattern with no references at all renders to itself; any other template shape
is outside the model.  The names `vars` and `record` are reserved by
`render_jinja2` and also outside the model. -/
def renderSimple (pattern : String) (fields : Fields) : Except String String :=
  let inner := pattern.data.drop 3
  let midcs := inner.take (inner.length - 3)
  let mid : String := ⟨midcs⟩
  if pattern = "\x7b\x7b " ++ mid ++ " \x7d\x7d" then
    if midcs.length > 0 ∧ midcs.all identChar ∧ ¬ (midcs.headD '0').isDigit then
      if mid = "vars" ∨ mid = "record" then
        .error "template outside model"
      else
        .ok (match pyGet fields mid with
          | some v => pyStr v
          | none => "")
    else if midcs.length > 0 ∧ midcs.all Char.isDigit then
      .ok mid
    else
      .error "template outside model"
  else if pattern.data.any (fun c => c = '\x7b') then
    .error "template outside model"
  else
    .ok pattern

/-- The `for key, value in record.items()` scan of `pick_key_pattern`: the
first field whose value contains `"@"`, or `none`; iteration raises where
Python's `in` does. -/
def atScan : Fields → Except String (Option String)
  | [] => .ok none
  | (k, v) :: rest => do
    if (← containsAt v) then pure (some k) else atScan rest

/-- The fallback of `pick_key_pattern` when the record has no usable `key`
field (`helpers.py`, lines 214-218): the first field whose value contains
`"@"` becomes a one-field template of that field name; otherwise the template
is built from the record's FIRST VALUE, `list(record.values())[0]`, via
`str`-formatting (an empty record raises `IndexError` there). -/
def keyHeuristic (fields : Fields) : Except String (Option Value) := do
  match (← atScan fields) with
  | some k => pure (some (.vstr ("\x7b\x7b " ++ k ++ " \x7d\x7d")))
  | none =>
    match fields with
    | [] => .error "IndexError: list index out of range"
    | (_, v) :: _ => pure (some (.vstr ("\x7b\x7b " ++ pyStr v ++ " \x7d\x7d")))

/-- `reindex_user_data.pick_key_pattern` (`helpers.py`, lines 206-226) with
`unmodify_default = True` (every call site uses the default): the explicit key
pattern when one is supplied; else, for a mapping record, the record's `key`
field if present and not `None`, else the heuristic; a fixed `data[0]`
template for list records; `None` for any other record shape. -/
def pick_key_pattern (key_pattern : Option String) (record : Rec) :
    Except String (Option Value) :=
  match key_pattern with
  | some kp => .ok (some (.vstr kp))
  | none =>
    match record with
    | .rmap fields =>
      match pyGet fields "key" with
      | some v => if v = .vnull then keyHeuristic fields else .ok (some v)
      | none => keyHeuristic fields
    | .rlist _ => .ok (some (.vstr "\x7b\x7b data[0] \x7d\x7d"))
    | .rother => .ok none

/-- `reindex_user_data.pick_key`: render the picked pattern against the record
with `render_jinja2`.  For a non-mapping, non-list record, `render_jinja2`
falls through all of its type tests and returns Python `None`; a non-string
pattern raises inside jinja2; for a list record, `render(record=data, ...,
*data)` passes the items as positional arguments to `dict()`, which only
succeeds for an empty list, where the pattern's references are all undefined. -/
def pick_key (key_pattern : Option String) (record : Rec) :
    Except String (Option String) := do
  let pat ← pick_key_pattern key_pattern record
  match record, pat with
  | .rother, _ => pure none
  | _, none => pure none
  | .rmap fields, some (.vstr p) => do pure (some (← renderSimple p fields))
  | .rmap _, some _ => .error "TypeError: template pattern is not a string"
  | .rlist items, some (.vstr p) =>
    if items = [] then do pure (some (← renderSimple p []))
    else .error "TypeError: render of a non-empty list record"
  | .rlist _, some _ => .error "TypeError: template pattern is not a string"

/-- A user-data collection: a plain list of records, or a keyed mapping
(`dict`) from canonical key to record. -/
inductive UserData where
  | ulist (recs : List Rec)
  | udict (d : List (String × Rec))
deriving DecidableEq

/-- `helpers.unindex_data`: a keyed mapping becomes its list of values, a list
is returned unchanged. -/
def unindex_data : UserData → List Rec
  | .ulist recs => recs
  | .udict d => d.map Prod.snd

/-- The `(pick_key(record), record)` pairs of the reindexing dict
comprehension, in record order. -/
def keyPairs (key : Option String) : List Rec → Except String (List (Option String × Rec))
  | [] => .ok []
  | r :: rs => do
    let k ← pick_key key r
    let rest ← keyPairs key rs
    .ok ((k, r) :: rest)

/-- Build a Python dict from a list of key-value pairs in order (the dict
comprehension: a repeated key keeps its first position, its value is the last
one written). -/
def pyDictOf {K V : Type} [DecidableEq K] (pairs : List (K × V)) : List (K × V) :=
  pairs.foldl (fun acc p => pyInsert acc p.1 p.2) []

/-- `helpers.reindex_user_data` (lines 197-243): key every record with
`pick_key`, build the key-to-record dict; if `None` ended up among the keys,
abandon the reindexing and return the input unchanged. -/
def reindex_user_data (user_data : UserData) (key : Option String) :
    Except String UserData := do
  let pairs ← keyPairs key (unindex_data user_data)
  let d := pyDictOf pairs
  if d.any (fun p => p.1.isNone) then
    pure user_data
  else
    pure (.udict (d.filterMap (fun p => p.1.map (fun k => (k, p.2)))))

/-- Modelled from the spec: the Filter Engine of §4.3 is the external `yaql`
library, whose code is not in this repository.  Per the spec's contract,
`filter(records, query) -> records_subset` returns exactly the records
matching the query, so a compiled query is modelled as the predicate it
denotes.  This is `helpers.refilter_user_data`: unkey, evaluate the filter,
optionally reindex the result. -/
def refilter_user_data (user_data : UserData) (filter_query : Rec → Bool)
    (reindex : Bool) (key : Option String) : Except String UserData := do
  let filtered := (unindex_data user_data).filter filter_query
  if reindex then
    reindex_user_data (.ulist filtered) key
  else
    pure (.ulist filtered)

/-- `helpers.deduplicate_user_data` (lines 270-307): a keyed mapping is
reindexed only when an explicit key is given; a list is reindexed (with the
explicit key, or the per-record heuristic) and unkeyed again, which removes
exact key collisions. -/
def deduplicate_user_data (user_data : UserData) (key : Option String) :
    Except String UserData :=
  match user_data with
  | .udict d =>
    match key with
    | some _ => reindex_user_data (.udict d) key
    | none => pure (.udict d)
  | .ulist recs => do
    let rd ← reindex_user_data (.ulist recs) key
    pure (.ulist (unindex_data rd))

/-- One iteration of the name-partition loop (`parsing.py`, lines 426-435 and
514-523): look up the user's rendered name in the accumulator dict, defaulting
to the empty list, and append the user. -/
def partitionStep (render : Rec → String) (acc : List (String × List Rec))
    (user : Rec) : List (String × List Rec) :=
  let n := render user
  pyInsert acc n ((pyGet acc n).getD [] ++ [user])

/-- The `subgroup_users` / `subchannel_users` partition dict, shared verbatim
by `UserGroupConfig.compute` and `ChannelConfig.compute`: group the target
users by their rendered name, in dict insertion order, keeping per-name
first-seen member order.  `render` stands for
`render_jinja2(self.get("name"), user, vars)` with the config's name template
and the global `vars` fixed. -/
def partitionByName (render : Rec → String) (users : List Rec) :
    List (String × List Rec) :=
  users.foldl (partitionStep render) []

/-- A computed Group (or Channel): the deep-copied config updated with the
rendered `name` and its member `users` (`parsing.py`, lines 437-450 and
525-538); the other config attributes ride along unchanged and are not
modelled. -/
structure Group where
  name : String
  users : List Rec
deriving DecidableEq

/-- `UserGroupConfig.compute` (`parsing.py`, lines 409-450): filter the user
directory with the config's optional filter (`refilter_user_data` with
`reindex=False`, which unkeys first), then partition the target users by
rendered name into one Group per distinct name. -/
def groupCompute (render : Rec → String) (filt : Option (Rec → Bool))
    (users : UserData) : List Group :=
  let target : UserData :=
    match filt with
    | some q => .ulist ((unindex_data users).filter q)
    | none => users
  (partitionByName render (unindex_data target)).map (fun p => ⟨p.1, p.2⟩)

/-- An item of a shell-style glob character class: a literal character or an
`a-b` range. -/
inductive ClsItem where
  | ch (c : Char)
  | range (a b : Char)
deriving DecidableEq

/-- A compiled token of an `fnmatch` glob pattern. -/
inductive GlobTok where
  | star
  | any
  | lit (c : Char)
  | cls (neg : Bool) (items : List ClsItem)
deriving DecidableEq

/-- Parse the scanned class content into literal and range items (a `-` at
either end is a literal, as in `fnmatch.translate`). -/
def parseClsItems : List Char → List ClsItem
  | a :: '-' :: b :: rest => .range a b :: parseClsItems rest
  | a :: rest => .ch a :: parseClsItems rest
  | [] => []

/-- Scan a character-class body up to the closing `]`, returning the raw
content (in order) and the remaining pattern; `none` when the class never
closes. -/
def scanClassBody : List Char → List Char → Option (List Char × List Char)
  | [], _ => none
  | c :: rest, acc =>
    if c = ']' then some (acc.reverse, rest) else scanClassBody rest (c :: acc)

/-- Find the end of a `[...]` character class: optional `!` negation, then the
quirk that a `]` right after the opening (and optional `!`) is class content,
then the body up to the closing `]`.  Returns the negation flag, the raw class
content and the remainder of the pattern, or `none` when unterminated. -/
def classEnd : List Char → Option (Bool × List Char × List Char)
  | '!' :: ']' :: r2 => (scanClassBody r2 [']']).map (fun pr => (true, pr.1, pr.2))
  | '!' :: r1 => (scanClassBody r1 []).map (fun pr => (true, pr.1, pr.2))
  | ']' :: r2 => (scanClassBody r2 [']']).map (fun pr => (false, pr.1, pr.2))
  | r1 => (scanClassBody r1 []).map (fun pr => (false, pr.1, pr.2))

/-- Modelled from the spec: the shell-style wildcard matching of §4.6 is the
standard-library `fnmatch` module, whose code is not in this repository.
This compiles a glob as `fnmatch.translate` does on a POSIX platform (no case
folding): `*`, `?`, and `[...]` / `[!...]` classes, where a `]` right after
the opening (and optional `!`) is class content, and an unterminated `[` is a
literal whose following characters are reprocessed as ordinary pattern text.
The fuel argument only bounds the recursion depth; every step consumes at
least one input character (`classEnd` returns a strictly shorter remainder),
so `compileGlob` below never exhausts it. -/
def compileGlobF : Nat → List Char → List GlobTok
  | 0, _ => []
  | _ + 1, [] => []
  | f + 1, '*' :: rest => .star :: compileGlobF f rest
  | f + 1, '?' :: rest => .any :: compileGlobF f rest
  | f + 1, '[' :: rest =>
    (match classEnd rest with
     | some x => .cls x.1 (parseClsItems x.2.1) :: compileGlobF f x.2.2
     | none => .lit '[' :: compileGlobF f rest)
  | f + 1, c :: rest => .lit c :: compileGlobF f rest

def compileGlob (l : List Char) : List GlobTok :=
  compileGlobF (l.length + 1) l

/-- Does the character match the (possibly negated) class? -/
def matchCls (neg : Bool) (items : List ClsItem) (c : Char) : Bool :=
  let m := items.any (fun it =>
    match it with
    | .ch a => c = a
    | .range a b => a ≤ c && c ≤ b)
  if neg then !m else m

/-- Match a compiled glob against a character string.  The fuel argument only
bounds the recursion depth; every recursive call strictly decreases the
combined length of the token list and the string, so `tokMatch` below never
exhausts it. -/
def tokMatchF : Nat → List GlobTok → List Char → Bool
  | 0, _, _ => false
  | _ + 1, [], [] => true
  | _ + 1, [], _ :: _ => false
  | f + 1, .star :: ts, s =>
    tokMatchF f ts s ||
      (match s with
       | [] => false
       | _ :: s2 => tokMatchF f (.star :: ts) s2)
  | f + 1, .any :: ts, _ :: s => tokMatchF f ts s
  | f + 1, .lit a :: ts, c :: s => a = c && tokMatchF f ts s
  | f + 1, .cls n i :: ts, c :: s => matchCls n i c && tokMatchF f ts s
  | _ + 1, _ :: _, [] => false

def tokMatch (ts : List GlobTok) (s : List Char) : Bool :=
  tokMatchF (ts.length + s.length + 1) ts s

/-- `fnmatch.fnmatch(name, pattern)` on POSIX. -/
def fnmatchB (name pattern : String) : Bool :=
  tokMatch (compileGlob pattern.data) name.data

/-- The `groups` field of a Channel Config: a single glob string or a list of
globs (`parsing.py`, lines 484-487 normalize the former to a list). -/
inductive GlobsField where
  | gstr (s : String)
  | glist (gs : List String)

def globsList : GlobsField → List String
  | .gstr s => [s]
  | .glist gs => gs

/-- The candidate-user computation of `ChannelConfig.compute` (`parsing.py`,
lines 481-503): with `groups` globs, collect the names of groups matched by
any glob (`fnmatch.filter` per glob; the `set()` in the source only
deduplicates names before a membership test, so the joined list is
membership-equivalent), concatenate the member lists of the matching groups
in group order, and deduplicate with the key heuristic; without `groups`, the
full user directory. -/
def channelCandidates (globs : Option GlobsField) (users : UserData)
    (groups : List Group) : Except String UserData :=
  match globs with
  | none => .ok users
  | some gf =>
    let group_globs := globsList gf
    let group_names := groups.map (fun g => g.name)
    let globbed_names :=
      (group_globs.map (fun gl => group_names.filter (fun n => fnmatchB n gl))).flatten
    let target :=
      ((groups.filter (fun g => decide (g.name ∈ globbed_names))).map
        (fun g => g.users)).flatten
    deduplicate_user_data (.ulist target) none

/-- `ChannelConfig.compute` (`parsing.py`, lines 474-538): resolve the
`groups` globs to a candidate user set, apply the optional filter
(`refilter_user_data` with `reindex=False`), and partition by rendered
channel name exactly as `UserGroupConfig.compute` does. -/
def channelCompute (render : Rec → String) (globs : Option GlobsField)
    (filt : Option (Rec → Bool)) (users : UserData) (groups : List Group) :
    Except String (List Group) := do
  let target ← channelCandidates globs users groups
  let target : UserData :=
    match filt with
    | some q => .ulist ((unindex_data target).filter q)
    | none => target
  pure ((partitionByName render (unindex_data target)).map (fun p => ⟨p.1, p.2⟩))

/-- Python `str.lower()` (ASCII case folding suffices for the model). -/
def strLower (s : String) : String := ⟨s.data.map Char.toLower⟩

/-- Apply a record-rewriting step to every record of a collection, keeping the
shape and (for a keyed mapping) the keys. -/
def mapUserData (f : Rec → Except String Rec) : UserData → Except String UserData
  | .ulist recs => do pure (.ulist (← recs.mapM f))
  | .udict d => do pure (.udict (← d.mapM (fun kv => do pure (kv.1, ← f kv.2))))

/-- The alternate-emails rewrite of `UserSourceConfig._post_process`
(`parsing.py`, lines 269-298): look the record's `email` up in the alias
table (falling back to the lowercased email when the exact lookup is falsy),
append the email itself to the alias group if missing, then overwrite `email`
with the group's first entry and store the whole group under
`alternate_emails`.  Records without a (string) `email` are left alone or
raise exactly where Python would. -/
def applyAlternateEmails (table : List (String × List String)) (r : Rec) :
    Except String Rec :=
  match r with
  | .rmap flds =>
    match pyGet flds "email" with
    | none => .ok r
    | some .vnull => .ok r
    | some (.vstr e) =>
      let ae_lookup : Option (List String) :=
        match pyGet table e with
        | some l => if l = [] then pyGet table (strLower e) else some l
        | none => pyGet table (strLower e)
      (match ae_lookup with
       | none => .ok r
       | some ae1 =>
         let ae := if e ∈ ae1 then ae1 else ae1 ++ [e]
         .ok (.rmap (pyInsert
           (pyInsert flds "email" (.vstr (ae.headD "")))
           "alternate_emails" (.vlist (ae.map (fun s => .vstr s))))))
    | some _ => .error "TypeError: email field is not a string"
  | _ => .error "AttributeError: record has no attribute get"

/-- A derived-field template of the `fields` section: a single template, or a
list of templates whose renderings extend the record's current value. -/
inductive FieldPattern where
  | single (pattern : String)
  | multi (patterns : List String)

/-- The `__expand_record` closure of `_post_process` (`parsing.py`, lines
320-357): build the `new_fields` dict in declaration order — a string
template renders to a fresh value, a list of templates appends its renderings
to the record's current value for that field (a missing value counts as the
empty list, a string is wrapped into one) — then `record.update(new_fields)`.
`renderT` stands for the external jinja2 `render_jinja2(pattern, record,
vars)` call with `vars` fixed. -/
def expandRecord (renderT : String → Rec → String)
    (fps : List (String × FieldPattern)) (r : Rec) : Except String Rec :=
  match r with
  | .rmap flds => do
    let new_fields ← fps.foldlM (fun (nf : Fields) (p : String × FieldPattern) => do
      match p.2 with
      | .single pat => pure (pyInsert nf p.1 (.vstr (renderT pat r)))
      | .multi pats => do
        let cur ← (match pyGet flds p.1 with
          | none => .ok ([] : List Value)
          | some (.vstr s) => .ok [Value.vstr s]
          | some (.vlist xs) => .ok xs
          | some _ => .error "TypeError: can only concatenate list to list")
        pure (pyInsert nf p.1
          (.vlist (cur ++ pats.map (fun q => Value.vstr (renderT q r)))))) []
    pure (.rmap (new_fields.foldl (fun acc kv => pyInsert acc kv.1 kv.2) flds))
  | _ => .error "AttributeError: record has no attribute update"

/-- The `_post_process`-relevant fields of a User Source Config: the optional
`key` template, the optional `fields` section, and the optional `filter`
query (the latter modelled as the predicate the compiled query denotes, see
`refilter_user_data`).  The `type`/`file`/`contents`/`sort` fields feed
`_load`, whose file selection is modelled by `selectSourceFile`. -/
structure UserSourceConfig where
  key : Option String
  fields : Option (List (String × FieldPattern))
  filter : Option (Rec → Bool)

/-- `UserSourceConfig._post_process` (`parsing.py`, lines 262-379): the
alternate-emails rewrite, then reindexing by the explicit `key` pattern (and
stamping that pattern into each record's `key` field), then derived-field
expansion, then the filter branch — whose guard tests
`self.get("fields") is not None` where the surrounding code concerns
`filter`, so the filter only runs when a `fields` section is also present. -/
def postProcess (cfg : UserSourceConfig) (renderT : String → Rec → String)
    (alternate_emails : Option (List (String × List String)))
    (data : UserData) : Except String UserData := do
  let data ← (match alternate_emails with
    | none => pure data
    | some table => mapUserData (applyAlternateEmails table) data)
  let data ← (match cfg.key with
    | none => pure data
    | some kp => do
      let d ← reindex_user_data data (some kp)
      mapUserData (fun r =>
        match r with
        | .rmap flds => .ok (.rmap (pyInsert flds "key" (.vstr kp)))
        | _ => .error "TypeError: cannot set a key on this record") d)
  let data ← (match cfg.fields with
    | none => pure data
    | some fps => mapUserData (expandRecord renderT fps) data)
  match cfg.filter, cfg.fields with
  | some q, some _ => refilter_user_data data q cfg.key.isSome none
  | _, _ => pure data

/-- One file matched by the `file` glob of a User Source Config, with its
modification time. -/
structure FileEntry where
  name : String
  mtime : Nat
deriving DecidableEq

/-- Insert an element into a sorted list, after every element it does not
strictly precede (the stable position). -/
def insertByLe {α : Type} (le : α → α → Bool) (x : α) : List α → List α
  | [] => [x]
  | y :: ys => if le y x then y :: insertByLe le x ys else x :: y :: ys

/-- A stable insertion sort: the specified behavior of Python `list.sort`
(total order by key, equal keys keep their input order). -/
def stableSortByLe {α : Type} (le : α → α → Bool) (l : List α) : List α :=
  l.foldl (fun acc x => insertByLe le x acc) []

/-- The file selection of `UserSourceConfig._load` (`parsing.py`, lines
217-240), modelled from the spec where the operating system is involved (the
glob's matches and their modification times are inputs): sort the matched
files by modification time — in reverse exactly when the `sort` option,
defaulting to `"newest"`, equals `"newest"` — and take the first file. -/
def selectSourceFile (sort : Option String) (files : List FileEntry) :
    Option FileEntry :=
  let reverse_sort : Bool := (sort.getD "newest") = "newest"
  let le : FileEntry → FileEntry → Bool := fun a b =>
    if reverse_sort then decide (b.mtime ≤ a.mtime) else decide (a.mtime ≤ b.mtime)
  (stableSortByLe le files).head?

/-- The last element of a list satisfying a test (`none` when there is none):
the survivor of repeated dict overwrites. -/
def lastMatch {α : Type} (p : α → Bool) : List α → Option α
  | [] => none
  | x :: xs =>
    match lastMatch p xs with
    | some y => some y
    | none => if p x then some x else none

theorem lastMatch_map {α β : Type} (f : α → β) (p : β → Bool) (l : List α) :
    lastMatch p (l.map f) = (lastMatch (fun a => p (f a)) l).map f := by
  induction l with
  | nil => rfl
  | cons x xs ih =>
    simp only [List.map_cons, lastMatch, ih]
    cases lastMatch (fun a => p (f a)) xs with
    | some y => rfl
    | none =>
      simp only [Option.map_none]
      by_cases hp : p (f x) = true <;> simp [hp]

theorem lastMatch_eq_getLast?_filter {α : Type} (p : α → Bool) :
    ∀ l : List α, lastMatch p l = (l.filter p).getLast? := by
  intro l
  induction l with
  | nil => rfl
  | cons x xs ih =>
    simp only [lastMatch, List.filter_cons]
    by_cases hpx : p x = true
    · simp only [if_pos hpx, List.getLast?_cons]
      cases h : lastMatch p xs with
      | none => rw [ih] at h; simp [h]
      | some y => rw [ih] at h; simp [h]
    · simp only [hpx, if_neg, ih]
      cases h : (xs.filter p).getLast? with
      | none => simp [h, hpx]
      | some y => simp [h]

section FoldLemmas

variable {α K V : Type} [DecidableEq K]

/-- Keys of a fold of dict assignments: the accumulator's keys followed by the
first occurrence of every newly assigned key. -/
theorem foldl_pyInsert_keys (keyOf : α → K) (valOf : List (K × V) → α → V) :
    ∀ (xs : List α) (acc : List (K × V)),
      ((xs.foldl (fun a x => pyInsert a (keyOf x) (valOf a x)) acc).map Prod.fst) =
        acc.map Prod.fst ++
          dedupFirst ((xs.map keyOf).filter (fun k => k ∉ acc.map Prod.fst)) := by
  intro xs
  induction xs with
  | nil => intro acc; simp [dedupFirst_nil]
  | cons x xs ih =>
    intro acc
    simp only [List.foldl_cons, List.map_cons, List.filter_cons]
    rw [ih]
    by_cases hm : keyOf x ∈ acc.map Prod.fst
    · rw [map_fst_pyInsert, if_pos hm]
      simp [hm]
    · rw [map_fst_pyInsert, if_neg hm]
      rw [if_pos (by simpa using hm)]
      rw [dedupFirst_cons, List.append_assoc]
      congr 1
      simp only [List.cons_append, List.nil_append]
      congr 1
      rw [List.filter_filter]
      congr 1
      apply List.filter_congr
      intro k _
      by_cases hk : k = keyOf x <;> by_cases hl : k ∈ acc.map Prod.fst <;>
        simp [hk, hl]

/-- Lookup in a fold of dict assignments from plain pairs: the value of the
last pair carrying the key, else the accumulator's value. -/
theorem foldl_pyInsert_get (ps : List (K × V)) :
    ∀ (acc : List (K × V)) (k : K),
      pyGet (ps.foldl (fun a p => pyInsert a p.1 p.2) acc) k =
        (match lastMatch (fun p => decide (p.1 = k)) ps with
         | some p => some p.2
         | none => pyGet acc k) := by
  induction ps with
  | nil => intro acc k; rfl
  | cons p ps ih =>
    intro acc k
    simp only [List.foldl_cons, lastMatch]
    rw [ih]
    cases h : lastMatch (fun q => decide (q.1 = k)) ps with
    | some q => simp
    | none =>
      simp only []
      by_cases hk : p.1 = k
      · subst hk
        simp [pyGet_pyInsert_self]
      · rw [pyGet_pyInsert_ne _ _ _ _ (fun hc => hk hc.symm)]
        simp [hk]

theorem pyDictOf_keys (ps : List (K × V)) :
    (pyDictOf ps).map Prod.fst = dedupFirst (ps.map Prod.fst) := by
  have h := foldl_pyInsert_keys (fun p : K × V => p.1) (fun _ p => p.2) ps []
  simpa [pyDictOf] using h

theorem pyDictOf_get (ps : List (K × V)) (k : K) :
    pyGet (pyDictOf ps) k =
      (lastMatch (fun p => decide (p.1 = k)) ps).map Prod.snd := by
  have h := foldl_pyInsert_get ps [] k
  rw [pyDictOf, h]
  cases lastMatch (fun p => decide (p.1 = k)) ps <;> simp [pyGet]

/-- Overwriting a key with the value it already stores does nothing. -/
theorem pyInsert_self_eq (d : List (K × V)) (k : K) (v : V)
    (h : pyGet d k = some v) : pyInsert d k v = d := by
  induction d with
  | nil => simp [pyGet] at h
  | cons p rest ih =>
    obtain ⟨a, b⟩ := p
    by_cases ha : a = k
    · subst ha
      simp only [pyGet, if_pos rfl] at h
      cases h
      simp [pyInsert]
    · simp only [pyGet, if_neg ha] at h
      simp [pyInsert, ha, ih h]

/-- Values of a dict built from key-tagged elements, when the key function is
injective on them: the elements with later duplicates dropped. -/
theorem pyDictOf_values (kf : α → K) [DecidableEq α] :
    ∀ (l : List α) (acc : List (K × α)),
      (∀ p ∈ acc, p.1 = kf p.2) →
      (∀ x ∈ l, ∀ p ∈ acc, kf x = kf p.2 → x = p.2) →
      (∀ x ∈ l, ∀ y ∈ l, kf x = kf y → x = y) →
      ((l.foldl (fun a x => pyInsert a (kf x) x) acc).map Prod.snd) =
        acc.map Prod.snd ++ dedupFirst (l.filter (fun x => x ∉ acc.map Prod.snd)) := by
  intro l
  induction l with
  | nil => intro acc _ _ _; simp [dedupFirst_nil]
  | cons x l ih =>
    intro acc hacc hcross hinj
    simp only [List.foldl_cons, List.filter_cons]
    by_cases hm : (kf x) ∈ acc.map Prod.fst
    · obtain ⟨p, hp, hpk⟩ := List.mem_map.mp hm
      have hxp : x = p.2 :=
        hcross x (List.mem_cons_self _ _) p hp (hpk.symm.trans (hacc p hp))
      have hxv : x ∈ acc.map Prod.snd := List.mem_map.mpr ⟨p, hp, hxp.symm⟩
      have hget : pyGet acc (kf x) = some x := by
        have hsome : (pyGet acc (kf x)).isSome = true := (pyGet_isSome_iff acc (kf x)).mpr hm
        cases hv : pyGet acc (kf x) with
        | none => rw [hv] at hsome; simp at hsome
        | some w =>
          have hw := pyGet_mem acc (kf x) w hv
          have : x = w := hcross x (List.mem_cons_self _ _) (kf x, w) hw (by simpa using (hacc _ hw))
          rw [← this]
      rw [pyInsert_self_eq acc (kf x) x hget]
      rw [ih acc hacc (fun y hy => hcross y (List.mem_cons_of_mem _ hy))
        (fun a ha b hb => hinj a (List.mem_cons_of_mem _ ha) b (List.mem_cons_of_mem _ hb))]
      simp [hxv]
    · have hxv : x ∉ acc.map Prod.snd := by
        intro hc
        obtain ⟨p, hp, hpx⟩ := List.mem_map.mp hc
        exact hm (List.mem_map.mpr ⟨p, hp, by rw [hacc p hp, hpx]⟩)
      rw [pyInsert_append_of_not_mem acc (kf x) x hm]
      rw [ih (acc ++ [(kf x, x)])
        (by intro p hp
            rcases List.mem_append.mp hp with h1 | h1
            · exact hacc p h1
            · simp at h1; subst h1; rfl)
        (by intro y hy p hp hk
            rcases List.mem_append.mp hp with h1 | h1
            · exact hcross y (List.mem_cons_of_mem _ hy) p h1 hk
            · simp at h1
              subst h1
              exact hinj y (List.mem_cons_of_mem _ hy) x (List.mem_cons_self _ _) (by simpa using hk))
        (fun a ha b hb => hinj a (List.mem_cons_of_mem _ ha) b (List.mem_cons_of_mem _ hb))]
      rw [if_pos (by simpa using hxv)]
      rw [dedupFirst_cons]
      simp only [List.map_append, List.map_cons, List.map_nil]
      rw [List.append_assoc]
      congr 1
      simp only [List.singleton_append]
      congr 1
      rw [List.filter_filter]
      congr 1
      apply List.filter_congr
      intro y _
      by_cases hy : y = x <;> by_cases hl : y ∈ acc.map Prod.snd <;> simp [hy, hl]

end FoldLemmas

section ReindexLemmas

theorem keyPairs_eq (key : Option String) (kf : Rec → Option String) :
    ∀ recs : List Rec, (∀ r ∈ recs, pick_key key r = .ok (kf r)) →
      keyPairs key recs = .ok (recs.map (fun r => (kf r, r))) := by
  intro recs
  induction recs with
  | nil => intro _; rfl
  | cons r rs ih =>
    intro h
    have h1 := h r (List.mem_cons_self _ _)
    have h2 := ih (fun x hx => h x (List.mem_cons_of_mem _ hx))
    simp only [keyPairs, bind, Except.bind, h1, h2, List.map_cons]

theorem pyInsert_map_key {K L V : Type} [DecidableEq K] [DecidableEq L]
    (f : K → L) (hf : ∀ a b, f a = f b → a = b) :
    ∀ (d : List (K × V)) (k : K) (v : V),
      pyInsert (d.map (fun p => (f p.1, p.2))) (f k) v =
        (pyInsert d k v).map (fun p => (f p.1, p.2)) := by
  intro d
  induction d with
  | nil => intro k v; simp [pyInsert]
  | cons p rest ih =>
    intro k v
    obtain ⟨a, b⟩ := p
    by_cases ha : a = k
    · subst ha
      simp [pyInsert]
    · have hfa : ¬ f a = f k := fun hc => ha (hf _ _ hc)
      simp only [List.map_cons, pyInsert, if_neg ha, if_neg hfa, List.map_cons]
      rw [ih]

theorem pyDictOf_map_key {K L V : Type} [DecidableEq K] [DecidableEq L]
    (f : K → L) (hf : ∀ a b, f a = f b → a = b) (ps : List (K × V)) :
    pyDictOf (ps.map (fun p => (f p.1, p.2))) =
      (pyDictOf ps).map (fun p => (f p.1, p.2)) := by
  have aux : ∀ (qs : List (K × V)) (acc : List (K × V)),
      ((qs.map (fun p => (f p.1, p.2))).foldl
        (fun a p => pyInsert a p.1 p.2) (acc.map (fun p => (f p.1, p.2)))) =
      (qs.foldl (fun a p => pyInsert a p.1 p.2) acc).map (fun p => (f p.1, p.2)) := by
    intro qs
    induction qs with
    | nil => intro acc; rfl
    | cons q qs ih =>
      intro acc
      simp only [List.map_cons, List.foldl_cons]
      rw [pyInsert_map_key f hf, ih]
  have h := aux ps []
  simpa [pyDictOf] using h

theorem filterMap_strip (d : List (String × Rec)) :
    ((d.map (fun p => ((some p.1 : Option String), p.2))).filterMap
      (fun p => p.1.map (fun k => (k, p.2)))) = d := by
  induction d with
  | nil => rfl
  | cons p rest ih =>
    obtain ⟨a, b⟩ := p
    simp [List.filterMap_cons, ih]

/-- Successful reindexing: when every record keys to an actual string, the
result is the key-to-record dict, built in record order with Python dict
update semantics. -/
theorem reindex_some (ud : UserData) (key : Option String) (kf : Rec → String)
    (hk : ∀ r ∈ unindex_data ud, pick_key key r = .ok (some (kf r))) :
    reindex_user_data ud key =
      .ok (.udict (pyDictOf ((unindex_data ud).map (fun r => (kf r, r))))) := by
  have hkp := keyPairs_eq key (fun r => some (kf r)) (unindex_data ud) hk
  have hmap : (unindex_data ud).map (fun r => ((some (kf r) : Option String), r)) =
      ((unindex_data ud).map (fun r => (kf r, r))).map (fun p => (some p.1, p.2)) := by
    rw [List.map_map]
    rfl
  have hd : pyDictOf ((unindex_data ud).map (fun r => ((some (kf r) : Option String), r))) =
      (pyDictOf ((unindex_data ud).map (fun r => (kf r, r)))).map
        (fun p => (some p.1, p.2)) := by
    rw [hmap, pyDictOf_map_key (fun k : String => (some k : Option String))
      (fun a b h => Option.some.inj h)]
  simp only [reindex_user_data, bind, Except.bind, hkp, hd]
  rw [if_neg (by simp)]
  rw [filterMap_strip]
  rfl

/-- Abandoned reindexing: if at least one record keys to Python `None`, the
input collection is returned unchanged. -/
theorem reindex_none (ud : UserData) (key : Option String) (kf : Rec → Option String)
    (hk : ∀ r ∈ unindex_data ud, pick_key key r = .ok (kf r))
    (r0 : Rec) (hr0 : r0 ∈ unindex_data ud) (hnone : kf r0 = none) :
    reindex_user_data ud key = .ok ud := by
  have hkp := keyPairs_eq key kf (unindex_data ud) hk
  simp only [reindex_user_data, bind, Except.bind, hkp]
  rw [if_pos ?hcond]
  case _ => rfl
  case hcond =>
    have hkeys : (pyDictOf ((unindex_data ud).map (fun r => (kf r, r)))).map Prod.fst =
        dedupFirst ((unindex_data ud).map kf) := by
      rw [pyDictOf_keys, List.map_map]
      rfl
    have hmem : (none : Option String) ∈
        (pyDictOf ((unindex_data ud).map (fun r => (kf r, r)))).map Prod.fst := by
      rw [hkeys, mem_dedupFirst]
      exact List.mem_map.mpr ⟨r0, hr0, hnone⟩
    obtain ⟨p, hp, hp1⟩ := List.mem_map.mp hmem
    exact List.any_eq_true.mpr ⟨p, hp, by rw [hp1]; rfl⟩

/-- Deduplication of a record list via the key heuristic: with per-record keys
that are injective on the list, exactly the later duplicates are dropped. -/
theorem dedup_ulist (recs : List Rec) (kf : Rec → String)
    (hk : ∀ r ∈ recs, pick_key none r = .ok (some (kf r)))
    (hinj : ∀ x ∈ recs, ∀ y ∈ recs, kf x = kf y → x = y) :
    deduplicate_user_data (.ulist recs) none = .ok (.ulist (dedupFirst recs)) := by
  have hre := reindex_some (.ulist recs) none kf hk
  simp only [deduplicate_user_data, bind, Except.bind, hre]
  simp only [unindex_data]
  congr 2
  have hfold : pyDictOf (recs.map (fun r => (kf r, r))) =
      recs.foldl (fun a r => pyInsert a (kf r) r) [] := by
    rw [pyDictOf, List.foldl_map]
  rw [hfold]
  have hv := pyDictOf_values kf recs [] (by simp) (by simp) hinj
  simpa using hv

end ReindexLemmas

section PartitionLemmas

theorem partitionStep_eq (render : Rec → String) (acc : List (String × List Rec))
    (u : Rec) :
    partitionStep render acc u =
      pyInsert acc (render u) ((pyGet acc (render u)).getD [] ++ [u]) := rfl

theorem partition_foldl_get (render : Rec → String) (us : List Rec) :
    ∀ (acc : List (String × List Rec)) (k : String),
      pyGet (us.foldl (partitionStep render) acc) k =
        (match pyGet acc k with
         | some cur => some (cur ++ us.filter (fun u => decide (render u = k)))
         | none =>
           if us.filter (fun u => decide (render u = k)) = [] then none
           else some (us.filter (fun u => decide (render u = k)))) := by
  induction us with
  | nil =>
    intro acc k
    simp only [List.foldl_nil, List.filter_nil]
    cases pyGet acc k <;> simp
  | cons u us ih =>
    intro acc k
    simp only [List.foldl_cons]
    rw [ih]
    by_cases hr : render u = k
    · rw [show List.filter (fun x => decide (render x = k)) (u :: us) =
          u :: List.filter (fun x => decide (render x = k)) us from by
        simp [List.filter_cons, hr]]
      rw [partitionStep_eq, hr, pyGet_pyInsert_self]
      cases hacc : pyGet acc k with
      | some cur => simp [hacc]
      | none => simp [hacc]
    · rw [show List.filter (fun x => decide (render x = k)) (u :: us) =
          List.filter (fun x => decide (render x = k)) us from by
        simp [List.filter_cons, hr]]
      rw [partitionStep_eq, pyGet_pyInsert_ne _ _ _ _ (fun hc => hr hc.symm)]

theorem partition_keys (render : Rec → String) (us : List Rec) :
    (partitionByName render us).map Prod.fst = dedupFirst (us.map render) := by
  have h := foldl_pyInsert_keys render
    (fun (a : List (String × List Rec)) (u : Rec) => (pyGet a (render u)).getD [] ++ [u])
    us []
  simpa [partitionByName, partitionStep_eq] using h

theorem partition_keys_nodup (render : Rec → String) (us : List Rec) :
    ((partitionByName render us).map Prod.fst).Nodup := by
  rw [partition_keys]
  exact nodup_dedupFirst _

theorem partition_get (render : Rec → String) (us : List Rec) (k : String) :
    pyGet (partitionByName render us) k =
      (if us.filter (fun u => decide (render u = k)) = [] then none
       else some (us.filter (fun u => decide (render u = k)))) := by
  have h := partition_foldl_get render us [] k
  simpa [partitionByName] using h

theorem partition_mem (render : Rec → String) (us : List Rec)
    (p : String × List Rec) (hp : p ∈ partitionByName render us) :
    p.2 = us.filter (fun u => decide (render u = p.1)) ∧ p.2 ≠ [] := by
  have hg : pyGet (partitionByName render us) p.1 = some p.2 :=
    mem_pyGet_of_nodup _ _ _ (partition_keys_nodup render us) hp
  rw [partition_get] at hg
  by_cases he : us.filter (fun u => decide (render u = p.1)) = []
  · rw [if_pos he] at hg; exact Option.noConfusion hg
  · rw [if_neg he] at hg
    have h2 := (Option.some.inj hg).symm
    refine ⟨h2, ?_⟩
    rw [h2]
    exact he

theorem partition_keys_mem (render : Rec → String) (us : List Rec) (n : String) :
    n ∈ (partitionByName render us).map Prod.fst ↔ ∃ u ∈ us, render u = n := by
  rw [partition_keys, mem_dedupFirst]
  constructor
  · intro h
    obtain ⟨u, hu, hr⟩ := List.mem_map.mp h
    exact ⟨u, hu, hr⟩
  · rintro ⟨u, hu, hr⟩
    exact List.mem_map.mpr ⟨u, hu, hr⟩

/-- The eligible user set of a Group Config: the unkeyed directory after the
config's optional filter (`parsing.py`, lines 415-422). -/
def targetUsers (filt : Option (Rec → Bool)) (users : UserData) : List Rec :=
  match filt with
  | some q => (unindex_data users).filter q
  | none => unindex_data users

theorem groupCompute_eq (render : Rec → String) (filt : Option (Rec → Bool))
    (users : UserData) :
    groupCompute render filt users =
      (partitionByName render (targetUsers filt users)).map (fun p => ⟨p.1, p.2⟩) := by
  cases filt <;> rfl

end PartitionLemmas

section ClaimTheorems

theorem combineField_none (v : Value) : combineField none v = v := by
  cases v <;> rfl

theorem combineField_of_not_lists (v w : Value) (h : (isVList v && isVList w) = false) :
    combineField (some v) w = w := by
  cases v <;> cases w <;> simp_all [isVList, combineField]

/-- C1: for every Group Config (and identically every Channel Config) applied
to a user set, after the optional filter selects the eligible users
(`targetUsers`), partitioning by the per-user rendered name yields one output
entity per distinct rendered name (the output names are pairwise distinct and
cover exactly the rendered names), each output entity's membership is exactly
the eligible users that rendered to its name in first-seen order (a filter of
the eligible list preserving input order), the union of the memberships is
exactly the eligible set, and every eligible user lies in exactly one output
entity.  The final conjunct shows a Channel Config partitions whatever
candidate set its `groups` globs produced through the very same computation,
so all of the above holds for channels as well. -/
theorem C1_group_channel_partition (render : Rec → String)
    (filt : Option (Rec → Bool)) (users : UserData) :
    (((groupCompute render filt users).map Group.name).Nodup
      ∧ (∀ g ∈ groupCompute render filt users,
          g.users = (targetUsers filt users).filter (fun u => decide (render u = g.name))
            ∧ g.users ≠ [])
      ∧ (∀ u, u ∈ targetUsers filt users ↔
          ∃ g ∈ groupCompute render filt users, u ∈ g.users)
      ∧ (∀ u ∈ targetUsers filt users,
          ∃! g, g ∈ groupCompute render filt users ∧ u ∈ g.users))
    ∧ (∀ (globs : Option GlobsField) (groups : List Group) (cand : UserData),
        channelCandidates globs users groups = .ok cand →
        channelCompute render globs filt users groups =
          .ok (groupCompute render filt cand)) := by
  have hnames : (groupCompute render filt users).map Group.name =
      (partitionByName render (targetUsers filt users)).map Prod.fst := by
    rw [groupCompute_eq, List.map_map]
    rfl
  have hmemg : ∀ g ∈ groupCompute render filt users,
      g.users = (targetUsers filt users).filter (fun u => decide (render u = g.name))
        ∧ g.users ≠ [] := by
    intro g hg
    rw [groupCompute_eq] at hg
    obtain ⟨p, hp, hgp⟩ := List.mem_map.mp hg
    obtain ⟨h1, h2⟩ := partition_mem render (targetUsers filt users) p hp
    subst hgp
    exact ⟨h1, h2⟩
  have hnodup : ((groupCompute render filt users).map Group.name).Nodup := by
    rw [hnames]
    exact partition_keys_nodup render (targetUsers filt users)
  have hexists : ∀ u, u ∈ targetUsers filt users →
      ∃ g, g ∈ groupCompute render filt users ∧ u ∈ g.users := by
    intro u hu
    have hkey : render u ∈
        (partitionByName render (targetUsers filt users)).map Prod.fst :=
      (partition_keys_mem render (targetUsers filt users) (render u)).mpr ⟨u, hu, rfl⟩
    obtain ⟨p, hp, hp1⟩ := List.mem_map.mp hkey
    refine ⟨⟨p.1, p.2⟩, ?_, ?_⟩
    · rw [groupCompute_eq]
      exact List.mem_map.mpr ⟨p, hp, rfl⟩
    · obtain ⟨h1, _⟩ := partition_mem render (targetUsers filt users) p hp
      show u ∈ p.2
      rw [h1]
      exact List.mem_filter.mpr ⟨hu, by simp [hp1]⟩
  refine ⟨⟨hnodup, hmemg, ?_, ?_⟩, ?_⟩
  · intro u
    constructor
    · intro hu
      obtain ⟨g, hg, hgu⟩ := hexists u hu
      exact ⟨g, hg, hgu⟩
    · rintro ⟨g, hg, hgu⟩
      obtain ⟨h1, _⟩ := hmemg g hg
      rw [h1] at hgu
      exact (List.mem_filter.mp hgu).1
  · intro u hu
    obtain ⟨g, hg, hgu⟩ := hexists u hu
    refine ⟨g, ⟨hg, hgu⟩, ?_⟩
    rintro g' ⟨hg', hgu'⟩
    have hn : g'.name = g.name := by
      obtain ⟨h1, _⟩ := hmemg g hg
      obtain ⟨h1', _⟩ := hmemg g' hg'
      rw [h1] at hgu
      rw [h1'] at hgu'
      have e1 : render u = g.name := by simpa using (List.mem_filter.mp hgu).2
      have e2 : render u = g'.name := by simpa using (List.mem_filter.mp hgu').2
      rw [← e1, ← e2]
    exact List.inj_on_of_nodup_map hnodup hg' hg hn
  · intro globs groups cand hc
    simp only [channelCompute, bind, Except.bind, hc]
    cases filt <;> rfl

/-- Witness for C1 at the spec's Scenario 1: two users with distinct years,
the name template partitions them, and the 2024 user lies in exactly one of
the resulting groups. -/
theorem C1_witness :
    ∃! g, (g ∈ groupCompute
        (fun r => match r with
          | .rmap f => "phd-" ++ (match pyGet f "year" with
            | some (.vstr y) => y
            | _ => "")
          | _ => "")
        none
        (.ulist [.rmap [("email", .vstr "a@x.com"), ("year", .vstr "2024")],
                 .rmap [("email", .vstr "b@x.com"), ("year", .vstr "2023")]]))
      ∧ (.rmap [("email", .vstr "a@x.com"), ("year", .vstr "2024")] : Rec) ∈ g.users :=
  (C1_group_channel_partition _ none _).1.2.2.2 _ (by decide)

/-- C2: `merge_dict(old, new, exact_only)` is field-by-field — a field present
in `new` but missing in `old` is added; two list values take the union (old
first, then the first occurrence of each new element not already present, in
order); any other field present on both sides takes `new`'s value; fields
absent from `new` keep `old`'s value — and with `exact_only` set, a
differing non-list conflict raises an error naming a conflicting field. -/
theorem C2_merge_dict (old new : Fields) (hnew : (new.map Prod.fst).Nodup) :
    (∃ m, merge_dict (some old) (some new) false = .ok (some m)
      ∧ (∀ k v, pyGet old k = none → pyGet new k = some v → pyGet m k = some v)
      ∧ (∀ k a b, pyGet old k = some (.vlist a) → pyGet new k = some (.vlist b) →
          pyGet m k = some (.vlist (a ++ dedupFirst (b.filter (fun x => x ∉ a)))))
      ∧ (∀ k v w, pyGet old k = some v → pyGet new k = some w →
          (isVList v && isVList w) = false → pyGet m k = some w)
      ∧ (∀ k, pyGet new k = none → pyGet m k = pyGet old k))
    ∧ ((∃ k, conflictB old new k = true) →
        ∃ k', conflictB old new k' = true ∧
          merge_dict (some old) (some new) true =
            .error ("merging the same user from different sources, conflict on " ++ k')) := by
  constructor
  · obtain ⟨m, hm, h1, h2⟩ := mergeLoop_false_ok new old hnew
    refine ⟨m, ?_, ?_, ?_, ?_, ?_⟩
    · simp only [merge_dict, hm, Except.map]
    · intro k v hold hnew'
      rw [h2 k v hnew', hold, combineField_none]
    · intro k a b hold hnew'
      rw [h2 k _ hnew', hold]
      simp only [combineField]
      rw [listUnion_eq]
    · intro k v w hold hnew' hnl
      rw [h2 k w hnew', hold, combineField_of_not_lists v w hnl]
    · intro k hnew'
      exact h1 k hnew'
  · rintro ⟨k, hk⟩
    obtain ⟨k', hk', herr⟩ := mergeLoop_true_error new old hnew ⟨k, hk⟩
    exact ⟨k', hk', by simp only [merge_dict, herr, Except.map]⟩

/-- Witness for C2 at the spec's Scenario 2: the `tags` field, missing in the
first source, is added by the merge. -/
theorem C2_witness :
    ∃ m, merge_dict
        (some [("email", .vstr "a@x.com"), ("role", .vstr "ta")])
        (some [("email", .vstr "a@x.com"), ("role", .vstr "ta"),
               ("tags", .vlist [.vstr "grader"])]) false = .ok (some m)
      ∧ pyGet m "tags" = some (.vlist [.vstr "grader"]) := by
  obtain ⟨⟨m, hm, h1, _⟩, _⟩ := C2_merge_dict
    [("email", .vstr "a@x.com"), ("role", .vstr "ta")]
    [("email", .vstr "a@x.com"), ("role", .vstr "ta"), ("tags", .vlist [.vstr "grader"])]
    (by decide)
  exact ⟨m, hm, h1 "tags" _ (by decide) (by decide)⟩

/-- C6: under the default merge policy, merging is commutative on every
non-conflicting field (absent on one side, or equal on both), and merging two
list-valued fields in either order yields lists with the same membership. -/
theorem C6_merge_commutative (A B : Fields)
    (hA : (A.map Prod.fst).Nodup) (hB : (B.map Prod.fst).Nodup) :
    ∃ m1 m2, merge_dict (some A) (some B) false = .ok (some m1)
      ∧ merge_dict (some B) (some A) false = .ok (some m2)
      ∧ (∀ k, (pyGet A k = none ∨ pyGet B k = none ∨ pyGet A k = pyGet B k) →
          pyGet m1 k = pyGet m2 k)
      ∧ (∀ k a b, pyGet A k = some (.vlist a) → pyGet B k = some (.vlist b) →
          ∃ l1 l2, pyGet m1 k = some (.vlist l1) ∧ pyGet m2 k = some (.vlist l2)
            ∧ ∀ x, x ∈ l1 ↔ x ∈ l2) := by
  obtain ⟨m1, hm1, g1, g2⟩ := mergeLoop_false_ok B A hB
  obtain ⟨m2, hm2, f1, f2⟩ := mergeLoop_false_ok A B hA
  refine ⟨m1, m2, ?_, ?_, ?_, ?_⟩
  · simp only [merge_dict, hm1, Except.map]
  · simp only [merge_dict, hm2, Except.map]
  · intro k hcase
    rcases hcase with hAn | hBn | heq
    · cases hBk : pyGet B k with
      | none => rw [g1 k hBk, f1 k hAn, hAn, hBk]
      | some v => rw [g2 k v hBk, f1 k hAn, hBk, hAn, combineField_none]
    · rw [g1 k hBn]
      cases hAk : pyGet A k with
      | none => rw [f1 k hAk, hBn]
      | some v => rw [f2 k v hAk, hBn, combineField_none]
    · cases hAk : pyGet A k with
      | none =>
        have hBk : pyGet B k = none := by rw [← heq, hAk]
        rw [g1 k hBk, f1 k hAk, hAk, hBk]
      | some v =>
        have hBk : pyGet B k = some v := by rw [← heq, hAk]
        rw [g2 k v hBk, f2 k v hAk, hAk, hBk]
  · intro k a b hAk hBk
    refine ⟨listUnion a b, listUnion b a, ?_, ?_, ?_⟩
    · rw [g2 k _ hBk, hAk]
      rfl
    · rw [f2 k _ hAk, hBk]
      rfl
    · intro x
      rw [mem_listUnion, mem_listUnion]
      exact Or.comm

/-- Witness for C6: two records sharing `email` (equal values) and `tags`
(lists in different orders) merge commutatively on `email`, and the merged
`tags` lists agree as sets. -/
theorem C6_witness :
    ∃ m1 m2,
      merge_dict (some [("email", .vstr "a@x.com"), ("tags", .vlist [.vstr "x", .vstr "y"])])
        (some [("email", .vstr "a@x.com"), ("tags", .vlist [.vstr "y", .vstr "z"])])
        false = .ok (some m1)
      ∧ merge_dict (some [("email", .vstr "a@x.com"), ("tags", .vlist [.vstr "y", .vstr "z"])])
        (some [("email", .vstr "a@x.com"), ("tags", .vlist [.vstr "x", .vstr "y"])])
        false = .ok (some m2)
      ∧ pyGet m1 "email" = pyGet m2 "email"
      ∧ (∃ l1 l2, pyGet m1 "tags" = some (.vlist l1) ∧ pyGet m2 "tags" = some (.vlist l2)
          ∧ ∀ x, x ∈ l1 ↔ x ∈ l2) := by
  obtain ⟨m1, m2, h1, h2, hcomm, hlist⟩ := C6_merge_commutative
    [("email", .vstr "a@x.com"), ("tags", .vlist [.vstr "x", .vstr "y"])]
    [("email", .vstr "a@x.com"), ("tags", .vlist [.vstr "y", .vstr "z"])]
    (by decide) (by decide)
  exact ⟨m1, m2, h1, h2, hcomm "email" (Or.inr (Or.inr (by decide))),
    hlist "tags" [.vstr "x", .vstr "y"] [.vstr "y", .vstr "z"] (by decide) (by decide)⟩

/-- C3: evaluation of the key heuristic at the record
`[("name", "bob")]` (no explicit pattern, no `key` field, no value containing
`"@"`).  Branches (a) and (b) behave as claimed, but branch (c) builds the
fallback template from the record's first VALUE (`list(record.values())[0]`),
producing the pattern `\x7b\x7b bob \x7d\x7d`, which renders against the
record to the empty string — not a key derived from the record's first field
(pattern `\x7b\x7b name \x7d\x7d`, key `"bob"`).  The first two conjuncts
check branches (a) and (b) on neighbouring records; the last three exhibit
the divergence of branch (c). -/
theorem C3_first_value_fallback :
    (pick_key_pattern none (.rmap [("key", .vstr "\x7b\x7b email \x7d\x7d"),
        ("email", .vstr "a@x.com")]) = .ok (some (.vstr "\x7b\x7b email \x7d\x7d")))
    ∧ (pick_key_pattern none (.rmap [("name", .vstr "bob"), ("email", .vstr "a@x.com")])
        = .ok (some (.vstr "\x7b\x7b email \x7d\x7d")))
    ∧ (pick_key_pattern none (.rmap [("name", .vstr "bob")])
        = .ok (some (.vstr "\x7b\x7b bob \x7d\x7d")))
    ∧ (pick_key none (.rmap [("name", .vstr "bob")]) = .ok (some ""))
    ∧ (pick_key none (.rmap [("name", .vstr "bob")]) ≠ .ok (some "bob")) := by
  refine ⟨by decide, by decide, by decide, by decide, by decide⟩

/-- C4: evaluation of `_post_process` on a source config whose `filter`
rejects every record.  With no `fields` section the filter branch is skipped
(its guard tests `self.get("fields") is not None`) and the data comes back
unfiltered; adding an empty `fields` section (any non-`None` value) makes the
same filter take effect.  The claim says the filter applies regardless of
`fields`. -/
theorem C4_filter_requires_fields :
    (postProcess ⟨none, none, some (fun _ => false)⟩ (fun _ _ => "") none
        (.ulist [.rmap [("email", .vstr "a@x.com")]]) =
      .ok (.ulist [.rmap [("email", .vstr "a@x.com")]]))
    ∧ (postProcess ⟨none, some [], some (fun _ => false)⟩ (fun _ _ => "") none
        (.ulist [.rmap [("email", .vstr "a@x.com")]]) =
      .ok (.ulist [])) := by
  exact ⟨rfl, rfl⟩

/-- C7: reindexing keys every record with `pick_key`; when at least one
record keys to the absence value (Python `None`, which `pick_key` produces
exactly for records that are neither mappings nor lists), the whole
reindexing is abandoned and the input collection is returned unchanged;
otherwise the result is the computed-key-to-record mapping.  `kf` names the
per-record key outcome, and the hypothesis pins it to the code's `pick_key`. -/
theorem C7_reindex_abandon (ud : UserData) (key : Option String)
    (kf : Rec → Option String)
    (hk : ∀ r ∈ unindex_data ud, pick_key key r = .ok (kf r)) :
    ((∃ r ∈ unindex_data ud, kf r = none) →
      reindex_user_data ud key = .ok ud)
    ∧ ((∀ r ∈ unindex_data ud, (kf r).isSome) →
      reindex_user_data ud key =
        .ok (.udict (pyDictOf ((unindex_data ud).map (fun r => ((kf r).getD "", r)))))) := by
  constructor
  · rintro ⟨r0, hr0, hnone⟩
    exact reindex_none ud key kf hk r0 hr0 hnone
  · intro hall
    have hk' : ∀ r ∈ unindex_data ud,
        pick_key key r = .ok (some ((kf r).getD "")) := by
      intro r hr
      rw [hk r hr]
      congr 1
      cases hv : kf r with
      | none =>
        have hcon := hall r hr
        rw [hv] at hcon
        simp at hcon
      | some v => rfl
    exact reindex_some ud key (fun r => (kf r).getD "") hk'

/-- Witness for C7: a two-record list whose second record is not a mapping
(so its key is the absence value): reindexing returns the list unchanged. -/
theorem C7_witness :
    reindex_user_data (.ulist [.rmap [("email", .vstr "a@x.com")], .rother]) none =
      .ok (.ulist [.rmap [("email", .vstr "a@x.com")], .rother]) :=
  (C7_reindex_abandon (.ulist [.rmap [("email", .vstr "a@x.com")], .rother]) none
      (fun r => match r with
        | .rmap _ => some "a@x.com"
        | _ => none)
      (by decide)).1 ⟨.rother, by decide, rfl⟩

/-- C9: reindexing a list in which several records compute the same key keeps
one record per key: the dict's keys are the computed keys in first-occurrence
order, the value stored under each key is the LAST input record that computed
it, and deduplication returns exactly those surviving values. -/
theorem C9_reindex_last_wins (recs : List Rec) (kf : Rec → String)
    (hk : ∀ r ∈ recs, pick_key none r = .ok (some (kf r))) :
    ∃ d, reindex_user_data (.ulist recs) none = .ok (.udict d)
      ∧ d.map Prod.fst = dedupFirst (recs.map kf)
      ∧ (∀ k, pyGet d k = (recs.filter (fun r => decide (kf r = k))).getLast?)
      ∧ deduplicate_user_data (.ulist recs) none = .ok (.ulist (d.map Prod.snd)) := by
  have hre := reindex_some (.ulist recs) none kf hk
  refine ⟨pyDictOf (recs.map (fun r => (kf r, r))), hre, ?_, ?_, ?_⟩
  · rw [pyDictOf_keys, List.map_map]
    rfl
  · intro k
    rw [pyDictOf_get]
    rw [lastMatch_map (fun r => (kf r, r)) (fun p => decide (p.1 = k)) recs]
    rw [lastMatch_eq_getLast?_filter]
    cases h : (recs.filter (fun r => decide (kf r = k))).getLast? <;> simp [h]
  · simp only [deduplicate_user_data, bind, Except.bind, hre]
    rfl

/-- Witness for C9: two records with the same heuristic key `a@x.com`; the
second (later) record survives as the value under that key. -/
theorem C9_witness :
    ∃ d, reindex_user_data
        (.ulist [.rmap [("email", .vstr "a@x.com"), ("n", .vstr "1")],
                 .rmap [("email", .vstr "a@x.com"), ("n", .vstr "2")]]) none =
      .ok (.udict d)
      ∧ pyGet d "a@x.com" = some (.rmap [("email", .vstr "a@x.com"), ("n", .vstr "2")]) := by
  obtain ⟨d, h1, _, h3, _⟩ := C9_reindex_last_wins
    [.rmap [("email", .vstr "a@x.com"), ("n", .vstr "1")],
     .rmap [("email", .vstr "a@x.com"), ("n", .vstr "2")]]
    (fun _ => "a@x.com") (by decide)
  refine ⟨d, h1, ?_⟩
  rw [h3 "a@x.com"]
  decide

theorem mem_insertByLe {α : Type} (le : α → α → Bool) (x : α) :
    ∀ (l : List α) (a : α), a ∈ insertByLe le x l ↔ a = x ∨ a ∈ l := by
  intro l
  induction l with
  | nil => intro a; simp [insertByLe]
  | cons y ys ih =>
    intro a
    simp only [insertByLe]
    by_cases h : le y x = true
    · rw [if_pos h]
      simp only [List.mem_cons, ih]
      tauto
    · rw [if_neg h]
      simp only [List.mem_cons]

theorem pairwise_insertByLe {α : Type} (le : α → α → Bool)
    (htrans : ∀ a b c, le a b = true → le b c = true → le a c = true)
    (htot : ∀ a b, le a b = true ∨ le b a = true) (x : α) :
    ∀ l : List α, l.Pairwise (fun a b => le a b = true) →
      (insertByLe le x l).Pairwise (fun a b => le a b = true) := by
  intro l
  induction l with
  | nil => intro _; simp [insertByLe]
  | cons y ys ih =>
    intro hl
    rw [List.pairwise_cons] at hl
    simp only [insertByLe]
    by_cases h : le y x = true
    · rw [if_pos h]
      rw [List.pairwise_cons]
      refine ⟨?_, ih hl.2⟩
      intro z hz
      rcases (mem_insertByLe le x ys z).mp hz with rfl | hz'
      · exact h
      · exact hl.1 z hz'
    · rw [if_neg h]
      rw [List.pairwise_cons]
      have hxy : le x y = true := by
        rcases htot x y with h1 | h1
        · exact h1
        · exact absurd h1 h
      refine ⟨?_, List.pairwise_cons.mpr hl⟩
      intro z hz
      rcases List.mem_cons.mp hz with rfl | hz'
      · exact hxy
      · exact htrans x y z hxy (hl.1 z hz')

theorem pairwise_stableSortByLe {α : Type} (le : α → α → Bool)
    (htrans : ∀ a b c, le a b = true → le b c = true → le a c = true)
    (htot : ∀ a b, le a b = true ∨ le b a = true) (l : List α) :
    (stableSortByLe le l).Pairwise (fun a b => le a b = true) := by
  have aux : ∀ (xs : List α) (acc : List α),
      acc.Pairwise (fun a b => le a b = true) →
      (xs.foldl (fun a x => insertByLe le x a) acc).Pairwise
        (fun a b => le a b = true) := by
    intro xs
    induction xs with
    | nil => intro acc h; exact h
    | cons x xs ih =>
      intro acc h
      exact ih _ (pairwise_insertByLe le htrans htot x acc h)
  exact aux l [] List.Pairwise.nil

theorem mem_stableSortByLe {α : Type} (le : α → α → Bool) (l : List α) (a : α) :
    a ∈ stableSortByLe le l ↔ a ∈ l := by
  have aux : ∀ (xs : List α) (acc : List α) (a : α),
      a ∈ xs.foldl (fun a x => insertByLe le x a) acc ↔ a ∈ acc ∨ a ∈ xs := by
    intro xs
    induction xs with
    | nil => intro acc a; simp
    | cons x xs ih =>
      intro acc a
      simp only [List.foldl_cons, ih, mem_insertByLe, List.mem_cons]
      tauto
  have h := aux l [] a
  simp only [stableSortByLe, List.not_mem_nil, false_or] at h ⊢
  exact h

theorem head_min_of_sort {α : Type} (le : α → α → Bool)
    (htrans : ∀ a b c, le a b = true → le b c = true → le a c = true)
    (htot : ∀ a b, le a b = true ∨ le b a = true) (l : List α) (hne : l ≠ []) :
    ∃ f, (stableSortByLe le l).head? = some f ∧ f ∈ l ∧ ∀ g ∈ l, le f g = true := by
  obtain ⟨x, hx⟩ := List.exists_mem_of_ne_nil l hne
  have hxs : x ∈ stableSortByLe le l := (mem_stableSortByLe le l x).mpr hx
  cases hs : stableSortByLe le l with
  | nil => rw [hs] at hxs; simp at hxs
  | cons f rest =>
    have hpw := pairwise_stableSortByLe le htrans htot l
    rw [hs, List.pairwise_cons] at hpw
    refine ⟨f, rfl, ?_, ?_⟩
    · have : f ∈ stableSortByLe le l := by rw [hs]; exact List.mem_cons_self _ _
      exact (mem_stableSortByLe le l f).mp this
    · intro g hg
      have hgs : g ∈ stableSortByLe le l := (mem_stableSortByLe le l g).mpr hg
      rw [hs] at hgs
      rcases List.mem_cons.mp hgs with rfl | hg'
      · rcases htot g g with h1 | h1 <;> exact h1
      · exact hpw.1 g hg'

/-- C8: with a glob matching several files, `_load` uses exactly one: the
sorted-by-modification-time list's first file — the minimal mtime under
`sort: oldest`, the maximal mtime under `sort: newest` or when `sort` is
absent.  Selection depends only on modification times, never on file names. -/
theorem C8_select_by_mtime (sort : Option String) (files : List FileEntry)
    (hne : files ≠ []) :
    (sort = some "oldest" →
      ∃ f, selectSourceFile sort files = some f ∧ f ∈ files
        ∧ ∀ g ∈ files, f.mtime ≤ g.mtime)
    ∧ ((sort = none ∨ sort = some "newest") →
      ∃ f, selectSourceFile sort files = some f ∧ f ∈ files
        ∧ ∀ g ∈ files, g.mtime ≤ f.mtime) := by
  constructor
  · rintro rfl
    have hrev : ((some "oldest").getD "newest" = "newest") = False := by
      simp
    obtain ⟨f, hf, hmem, hmin⟩ := head_min_of_sort
      (fun a b : FileEntry => decide (a.mtime ≤ b.mtime))
      (fun a b c hab hbc => by simp at hab hbc ⊢; omega)
      (fun a b => (Nat.le_total a.mtime b.mtime).imp (fun h => by simpa using h) (fun h => by simpa using h))
      files hne
    refine ⟨f, ?_, hmem, fun g hg => by simpa using hmin g hg⟩
    rw [selectSourceFile]
    simp only [Option.getD_some, hrev]
    rw [show (fun a b : FileEntry =>
        if (decide ("oldest" = "newest") : Bool) = true then decide (b.mtime ≤ a.mtime)
        else decide (a.mtime ≤ b.mtime)) =
      (fun a b : FileEntry => decide (a.mtime ≤ b.mtime)) from by
        funext a b
        simp]
    exact hf
  · intro hcase
    have hrev : (sort.getD "newest") = "newest" := by
      rcases hcase with rfl | rfl <;> rfl
    obtain ⟨f, hf, hmem, hmin⟩ := head_min_of_sort
      (fun a b : FileEntry => decide (b.mtime ≤ a.mtime))
      (fun a b c hab hbc => by simp at hab hbc ⊢; omega)
      (fun a b => (Nat.le_total b.mtime a.mtime).imp (fun h => by simpa using h) (fun h => by simpa using h))
      files hne
    refine ⟨f, ?_, hmem, fun g hg => by simpa using hmin g hg⟩
    rw [selectSourceFile]
    rw [show (fun a b : FileEntry =>
        if (decide ((sort.getD "newest") = "newest") : Bool) = true
        then decide (b.mtime ≤ a.mtime)
        else decide (a.mtime ≤ b.mtime)) =
      (fun a b : FileEntry => decide (b.mtime ≤ a.mtime)) from by
        funext a b
        simp [hrev]]
    exact hf

/-- Witness for C8 at the spec's Scenario 4: three files whose lexicographic
and modification-time orders disagree; `sort: oldest` selects the file with
the smallest mtime (`b.csv`), not the lexicographically smallest name. -/
theorem C8_witness :
    ∃ f, selectSourceFile (some "oldest")
        [⟨"a.csv", 5⟩, ⟨"b.csv", 2⟩, ⟨"c.csv", 9⟩] = some f
      ∧ f ∈ [(⟨"a.csv", 5⟩ : FileEntry), ⟨"b.csv", 2⟩, ⟨"c.csv", 9⟩]
      ∧ ∀ g ∈ [(⟨"a.csv", 5⟩ : FileEntry), ⟨"b.csv", 2⟩, ⟨"c.csv", 9⟩],
          f.mtime ≤ g.mtime :=
  (C8_select_by_mtime (some "oldest")
    [⟨"a.csv", 5⟩, ⟨"b.csv", 2⟩, ⟨"c.csv", 9⟩] (by decide)).1 rfl

/-- C5: with `groups` globs, a Channel Config's candidate user set (before
its own filter and partitioning) contains a record exactly when some Group
whose name matches at least one glob contains it — so every member of every
matching Group is present, no record enters from non-matching Groups alone —
and duplicates across matching Groups are collapsed to one occurrence; with
`groups` absent the candidate set is the full user directory.  The
deduplication runs through the per-record key heuristic, so the hypotheses
pin each pool record's key and ask the keys to identify records. -/
theorem C5_channel_candidates (globs : GlobsField) (users : UserData)
    (groups : List Group) (kf : Rec → String)
    (hk : ∀ g ∈ groups, ∀ r ∈ g.users, pick_key none r = .ok (some (kf r)))
    (hinj : ∀ g1 ∈ groups, ∀ r1 ∈ g1.users, ∀ g2 ∈ groups, ∀ r2 ∈ g2.users,
        kf r1 = kf r2 → r1 = r2) :
    (∃ cand, channelCandidates (some globs) users groups = .ok (.ulist cand)
      ∧ (∀ r, r ∈ cand ↔ ∃ g ∈ groups,
          (∃ gl ∈ globsList globs, fnmatchB g.name gl = true) ∧ r ∈ g.users)
      ∧ cand.Nodup)
    ∧ channelCandidates none users groups = .ok users := by
  constructor
  · set globbed := ((globsList globs).map
      (fun gl => (groups.map (fun g => g.name)).filter
        (fun n => fnmatchB n gl))).flatten with hglobbed
    set target := ((groups.filter (fun g => decide (g.name ∈ globbed))).map
      (fun g => g.users)).flatten with htarget
    have htmem : ∀ r, r ∈ target ↔
        ∃ g ∈ groups, g.name ∈ globbed ∧ r ∈ g.users := by
      intro r
      rw [htarget]
      simp only [List.mem_flatten, List.mem_map, List.mem_filter]
      constructor
      · rintro ⟨l, ⟨g, ⟨hg, hname⟩, rfl⟩, hr⟩
        exact ⟨g, hg, by simpa using hname, hr⟩
      · rintro ⟨g, hg, hname, hr⟩
        exact ⟨g.users, ⟨g, ⟨hg, by simpa using hname⟩, rfl⟩, hr⟩
    have hgmem : ∀ g ∈ groups, (g.name ∈ globbed ↔
        ∃ gl ∈ globsList globs, fnmatchB g.name gl = true) := by
      intro g hg
      rw [hglobbed]
      simp only [List.mem_flatten, List.mem_map, List.mem_filter]
      constructor
      · rintro ⟨l, ⟨gl, hgl, rfl⟩, hn⟩
        exact ⟨gl, hgl, (List.mem_filter.mp hn).2⟩
      · rintro ⟨gl, hgl, hm⟩
        exact ⟨_, ⟨gl, hgl, rfl⟩, List.mem_filter.mpr
          ⟨List.mem_map.mpr ⟨g, hg, rfl⟩, hm⟩⟩
    have hk' : ∀ r ∈ target, pick_key none r = .ok (some (kf r)) := by
      intro r hr
      obtain ⟨g, hg, _, hru⟩ := (htmem r).mp hr
      exact hk g hg r hru
    have hinj' : ∀ x ∈ target, ∀ y ∈ target, kf x = kf y → x = y := by
      intro x hx y hy hxy
      obtain ⟨g1, hg1, _, hx1⟩ := (htmem x).mp hx
      obtain ⟨g2, hg2, _, hy2⟩ := (htmem y).mp hy
      exact hinj g1 hg1 x hx1 g2 hg2 y hy2 hxy
    have hdd := dedup_ulist target kf hk' hinj'
    refine ⟨dedupFirst target, ?_, ?_, nodup_dedupFirst target⟩
    · show deduplicate_user_data (.ulist target) none = _
      exact hdd
    · intro r
      rw [mem_dedupFirst, htmem r]
      constructor
      · rintro ⟨g, hg, hname, hr⟩
        exact ⟨g, hg, (hgmem g hg).mp hname, hr⟩
      · rintro ⟨g, hg, hglm, hr⟩
        exact ⟨g, hg, (hgmem g hg).mpr hglm, hr⟩
  · rfl

/-- Witness for C5 at the spec's Scenario 3: groups `phd-2024`, `phd-2023`
and `msc`; with the glob `phd-*`, the candidate set contains the `phd-2024`
member, and is duplicate-free. -/
theorem C5_witness :
    ∃ cand, channelCandidates (some (.gstr "phd-*"))
        (.ulist [])
        [⟨"phd-2024", [.rmap [("email", .vstr "a@x.com")]]⟩,
         ⟨"phd-2023", [.rmap [("email", .vstr "b@x.com")]]⟩,
         ⟨"msc", [.rmap [("email", .vstr "c@x.com")]]⟩] = .ok (.ulist cand)
      ∧ (.rmap [("email", .vstr "a@x.com")] : Rec) ∈ cand
      ∧ cand.Nodup := by
  obtain ⟨⟨cand, hc, hmem, hnd⟩, _⟩ := C5_channel_candidates (.gstr "phd-*")
    (.ulist [])
    [⟨"phd-2024", [.rmap [("email", .vstr "a@x.com")]]⟩,
     ⟨"phd-2023", [.rmap [("email", .vstr "b@x.com")]]⟩,
     ⟨"msc", [.rmap [("email", .vstr "c@x.com")]]⟩]
    (fun r => match r with
      | .rmap (("email", .vstr e) :: _) => e
      | _ => "")
    (by decide) (by decide)
  refine ⟨cand, hc, ?_, hnd⟩
  exact (hmem _).mpr ⟨⟨"phd-2024", [.rmap [("email", .vstr "a@x.com")]]⟩,
    by decide, ⟨"phd-*", by decide, by decide⟩, by decide⟩

/-- C10: when none of a Channel Config's `groups` globs matches any existing
Group name, the candidate set is empty (no fallback to the full directory)
and `compute` returns no Channels at all. -/
theorem C10_no_matching_groups (render : Rec → String) (globs : GlobsField)
    (filt : Option (Rec → Bool)) (users : UserData) (groups : List Group)
    (hnomatch : ∀ g ∈ groups, ∀ gl ∈ globsList globs, fnmatchB g.name gl = false) :
    channelCompute render (some globs) filt users groups = .ok [] := by
  have hglobbed : ((globsList globs).map
      (fun gl => (groups.map (fun g => g.name)).filter
        (fun n => fnmatchB n gl))).flatten = [] := by
    rw [List.flatten_eq_nil_iff]
    intro xs hxs
    obtain ⟨gl, hgl, rfl⟩ := List.mem_map.mp hxs
    rw [List.filter_eq_nil_iff]
    intro n hn
    obtain ⟨g, hg, rfl⟩ := List.mem_map.mp hn
    simp [hnomatch g hg gl hgl]
  have htarget : ((groups.filter (fun g => decide (g.name ∈
      ((globsList globs).map
        (fun gl => (groups.map (fun g => g.name)).filter
          (fun n => fnmatchB n gl))).flatten))).map (fun g => g.users)).flatten = [] := by
    rw [hglobbed]
    simp
  have hcand : channelCandidates (some globs) users groups = .ok (.ulist []) := by
    show deduplicate_user_data (.ulist (((groups.filter (fun g => decide (g.name ∈
      ((globsList globs).map
        (fun gl => (groups.map (fun g => g.name)).filter
          (fun n => fnmatchB n gl))).flatten))).map (fun g => g.users)).flatten)) none = _
    rw [htarget]
    rfl
  simp only [channelCompute, bind, Except.bind, hcand]
  cases filt <;> rfl

/-- Witness for C10: one group `phd-2024` and the non-matching glob
`team-*`: the channel config computes no channels. -/
theorem C10_witness :
    channelCompute (fun _ => "cohort") (some (.gstr "team-*")) none
      (.ulist [.rmap [("email", .vstr "a@x.com")]])
      [⟨"phd-2024", [.rmap [("email", .vstr "a@x.com")]]⟩] = .ok [] :=
  C10_no_matching_groups (fun _ => "cohort") (.gstr "team-*") none
    (.ulist [.rmap [("email", .vstr "a@x.com")]])
    [⟨"phd-2024", [.rmap [("email", .vstr "a@x.com")]]⟩] (by decide)

end ClaimTheorems

end Slacktivate
